import Mathlib

/-!
Verification of the py-spy core: the binary symbol resolver
(`src/binary_parser.rs`) and the chrome-trace event encoder
(`src/chrometrace.rs`), as a shallow embedding in Lean.

Machine integers (`u64`, `u32`) are modelled as `Nat` with explicit
wrapping (`% 2 ^ 64`, `% 2 ^ 32`) at the points where Rust's release-mode
arithmetic wraps.  Symbol-table strings are modelled as `List Char` so the
LLVM-suffix stripping and underscore stripping can be stated structurally.
The `HashMap<String, u64>` of resolved symbols is modelled as an
association list where insertion prepends, so lookup sees the most recent
insertion first (the overwrite semantics of `HashMap::insert`).
-/

namespace PySpy

/-- Wrap a natural number to 64 bits (Rust `u64` overflow semantics). -/
def w64 (n : Nat) : Nat := n % 2 ^ 64

/-- Wrapping 64-bit subtraction `a - b` for `a`, `b` already below `2 ^ 64`
(Rust release-mode `u64` subtraction). -/
def wsub (a b : Nat) : Nat := w64 (a + 2 ^ 64 - b % 2 ^ 64)

/-- Association-list lookup: the first binding for the key wins.  Because
insertion prepends, this gives `HashMap` overwrite semantics. -/
def alookup (k : List Char) : List (List Char × Nat) → Option Nat
  | [] => none
  | (k', v) :: rest => if k' = k then some v else alookup k rest

/-! ## Binary parser (`src/binary_parser.rs`) -/

/-- `goblin::elf::section_header::SHT_NOBITS`. -/
def SHT_NOBITS : Nat := 8

/-- `goblin::elf::program_header::PT_LOAD`. -/
def PT_LOAD : Nat := 1

/-- `goblin::elf::program_header::PF_X`. -/
def PF_X : Nat := 1

/-- `goblin::elf::section_header::SHN_UNDEF` (as `usize`). -/
def SHN_UNDEF : Nat := 0

/-- An ELF section header.  `sh_name` is the name as resolved through
`shdr_strtab.get_at`: `none` models a name index that does not resolve. -/
structure SectionHeader where
  sh_type : Nat
  sh_name : Option (List Char)
  sh_size : Nat
  sh_addr : Nat
deriving DecidableEq

/-- An ELF program header (the fields `parse_binary` reads). -/
structure ProgramHeader where
  p_type : Nat
  p_flags : Nat
  p_vaddr : Nat
deriving DecidableEq

/-- An ELF symbol-table entry, with `st_name` already resolved through the
corresponding string table. -/
structure Sym where
  st_name : List Char
  st_value : Nat
  st_shndx : Nat
deriving DecidableEq

/-- The result record of `parse_binary`. -/
structure BinaryInfo where
  symbols : List (List Char × Nat)
  bss_addr : Nat
  bss_size : Nat
deriving DecidableEq

/-- The two ELF-branch failures of `parse_binary` ("Failed to find BSS
section header" and "Failed to find executable PT_LOAD program header"). -/
inductive ParseError where
  | missingBssSection
  | missingExecutableSegment
deriving DecidableEq

/-- The ELF BSS filter of `parse_binary`: `sh_type == SHT_NOBITS` and
`strtab.get_at(header.sh_name).map_or(true, |name| name == ".bss")`.
Note that a name index that does not resolve passes the filter. -/
def bssCandidate (h : SectionHeader) : Bool :=
  h.sh_type == SHT_NOBITS &&
    (match h.sh_name with
     | none => true
     | some n => n == ['.', 'b', 's', 's'])

/-- One comparison step of `Iterator::max_by_key` on `sh_size`: the later
element wins ties. -/
def pickMax (best x : SectionHeader) : SectionHeader :=
  if best.sh_size ≤ x.sh_size then x else best

/-- Rust `Iterator::max_by_key` on `sh_size`: the last element with the
largest key wins; `none` on an empty iterator. -/
def maxBySize : List SectionHeader → Option SectionHeader
  | [] => none
  | h :: t => some (t.foldl pickMax h)

/-- The program-header predicate of `parse_binary`:
`p_type == PT_LOAD && p_flags & PF_X != 0`. -/
def isExecLoad (p : ProgramHeader) : Bool :=
  p.p_type == PT_LOAD && (p.p_flags &&& PF_X) != 0

/-- Strips a trailing `.llvm.<digits>` suffix, the translation of
`Regex::new(r"[.]llvm[.][0-9]+$")` followed by `replace(name, "")`.
A name has at most one decomposition `pre ++ ".llvm." ++ digits` with a
nonempty all-digit tail (a second one would put a dot among the digits),
so scanning from the end is equivalent to the regex replacement. -/
def stripLLVM (name : List Char) : List Char :=
  let r := name.reverse
  let ds := r.takeWhile Char.isDigit
  let rest := r.dropWhile Char.isDigit
  if ds ≠ [] ∧ rest.take 6 = ['.', 'm', 'v', 'l', 'l', '.'] then
    (rest.drop 6).reverse
  else name

/-- The two symbol-table loops of the ELF branch of `parse_binary`:
static symbols are skipped when `st_shndx == SHN_UNDEF`, their names are
stripped of the LLVM suffix, and they are inserted first; dynamic symbols
are skipped on the same condition, inserted unstripped afterwards. -/
def elfSymbols (off : Nat) (syms dynsyms : List Sym) : List (List Char × Nat) :=
  let m := syms.foldl
    (fun m s => if s.st_shndx = SHN_UNDEF then m
                else (stripLLVM s.st_name, w64 (s.st_value + off)) :: m) []
  dynsyms.foldl
    (fun m s => if s.st_shndx = SHN_UNDEF then m
                else (s.st_name, w64 (s.st_value + off)) :: m) m

/-- The ELF branch of `parse_binary`.  `addr` is the load address, `ps`
the system page size (`page_size::get()`).  The BSS lookup runs (and can
fail) before the program-header lookup, exactly as in the source. -/
def elfParse (addr ps : Nat) (sections : List SectionHeader)
    (programs : List ProgramHeader) (syms dynsyms : List Sym) :
    Except ParseError BinaryInfo :=
  match maxBySize (sections.filter bssCandidate) with
  | none => .error .missingBssSection
  | some bssHeader =>
    match programs.find? isExecLoad with
    | none => .error .missingExecutableSegment
    | some ph =>
      let alignedVaddr := ph.p_vaddr - ph.p_vaddr % ps
      let off := wsub addr alignedVaddr
      .ok { symbols := elfSymbols off syms dynsyms
            bss_addr := w64 (bssHeader.sh_addr + off)
            bss_size := bssHeader.sh_size }

/-- A Mach-O section, flattened across segments in file order. -/
structure MachSection where
  name : List Char
  addr : Nat
  size : Nat
deriving DecidableEq

/-- A Mach-O symbol-table entry. -/
structure MachSym where
  name : List Char
  n_value : Nat
deriving DecidableEq

/-- The Mach-O BSS scan of `parse_binary`: start from `(0, 0)` and let
every section named `__bss` overwrite the pair (last match wins). -/
def machBss (off : Nat) (sections : List MachSection) : Nat × Nat :=
  sections.foldl
    (fun b s => if s.name = ['_', '_', 'b', 's', 's'] then (w64 (s.addr + off), s.size) else b)
    (0, 0)

/-- The Mach-O symbol loop of `parse_binary`:
`if let Some(stripped_name) = name.strip_prefix('_')` inserts the name
with exactly one leading underscore removed; other names are skipped. -/
def machSymbols (off : Nat) (syms : List MachSym) : List (List Char × Nat) :=
  syms.foldl
    (fun m s =>
      match s.name with
      | [] => m
      | c :: stripped =>
        if c = '_' then (stripped, w64 (s.n_value + off)) :: m else m) []

/-- The Mach-O branch of `parse_binary`, over already-decoded sections and
symbols (goblin-level decoding failures are outside the embedding). -/
def machParse (off : Nat) (sections : List MachSection) (syms : List MachSym) :
    Except ParseError BinaryInfo :=
  let bss := machBss off sections
  .ok { symbols := machSymbols off syms, bss_addr := bss.1, bss_size := bss.2 }

/-- The spec's `page_align_down`: round `v` down to a multiple of `ps`. -/
def pageAlignDown (v ps : Nat) : Nat := v - v % ps

/-! ## Chrome-trace encoder (`src/chrometrace.rs`) -/

/-- Modelled from the spec: `Frame` lives in `src/stack_trace.rs`, which is
not part of this repository snapshot.  The spec describes it as an opaque
name/file/line triple with `line` an unsigned integer. -/
structure Frame where
  name : String
  filename : String
  line : Nat
deriving DecidableEq

/-- Modelled from the spec: `StackTrace` lives in `src/stack_trace.rs`,
which is not part of this repository snapshot.  The spec describes it as a
`thread_id`, a `pid` and an ordered list of frames, leaf frame first. -/
structure StackTrace where
  thread_id : Nat
  pid : Nat
  frames : List Frame
deriving DecidableEq

/-- The serialized `Args` struct (`filename`, optional `line`). -/
structure Args where
  filename : String
  line : Option Nat
deriving DecidableEq

/-- The serialized `Event` struct. -/
structure Event where
  args : Args
  cat : String
  name : String
  ph : String
  pid : Nat
  tid : Nat
  ts : Nat
deriving DecidableEq

/-- A JSON value, as far as the serde output of `Event` needs. -/
inductive Json where
  | null
  | num (n : Nat)
  | str (s : String)
  | obj (fields : List (String × Json))

/-- The serde-derive serialization of `Args` as a field list, in field
declaration order.  The `line` field carries no
`skip_serializing_if` attribute in the source, so serde-derive always
emits the field, serializing `None` as JSON `null`. -/
def serializeArgs (a : Args) : List (String × Json) :=
  [("filename", Json.str a.filename),
   ("line", match a.line with | some n => Json.num n | none => Json.null)]

/-- The serde-derive serialization of one `Event`, fields in declaration
order. -/
def serializeEvent (e : Event) : Json :=
  Json.obj [("args", Json.obj (serializeArgs e.args)), ("cat", Json.str e.cat),
            ("name", Json.str e.name), ("ph", Json.str e.ph),
            ("pid", Json.num e.pid), ("tid", Json.num e.tid), ("ts", Json.num e.ts)]

/-- `Chrometrace::should_merge_frames`. -/
def shouldMergeFrames (showLinenumbers : Bool) (a b : Frame) : Bool :=
  (!showLinenumbers || a.line == b.line) && a.name == b.name && a.filename == b.filename

/-- `Chrometrace::event`.  `frame.line as u32` truncates to 32 bits. -/
def Chrometrace.event (showLinenumbers : Bool) (trace : StackTrace) (frame : Frame)
    (phase : String) (ts : Nat) : Event :=
  { tid := trace.thread_id
    pid := trace.pid
    name := frame.name
    cat := "py-spy"
    ph := phase
    ts := ts
    args := { filename := frame.filename
              line := if showLinenumbers then some (frame.line % 2 ^ 32) else none } }

/-- The first index at which the two (already reversed) frame lists fail
to merge, or the length of the shorter list when no mismatch occurs: this
is `prev_frames.iter().rev().zip(trace.frames.iter().rev())
.position(|(a, b)| !self.should_merge_frames(a, b))
.unwrap_or(min(prev_frames.len(), trace.frames.len()))`, computed in one
structural recursion (the `position` counts pairs before the first
mismatch, and when the zip runs out the count equals the shorter
length). -/
def firstMismatch (sl : Bool) : List Frame → List Frame → Nat
  | a :: ps, b :: cs =>
    if !shouldMergeFrames sl a b then 0 else firstMismatch sl ps cs + 1
  | _, _ => 0

/-- The `new_idx` of `Chrometrace::record_events`. -/
def newIdx (sl : Bool) (prevFrames currFrames : List Frame) : Nat :=
  firstMismatch sl prevFrames.reverse currFrames.reverse

/-- The events written by one `Chrometrace::record_events` call, in write
order: end events for `prev_frames.iter().rev().skip(new_idx).rev()`, then
begin events for `trace.frames.iter().rev().skip(new_idx)`. -/
def recordEventsList (sl : Bool) (now : Nat) (trace : StackTrace)
    (prevFrames : List Frame) : List Event :=
  let idx := newIdx sl prevFrames trace.frames
  (prevFrames.reverse.drop idx).reverse.map
      (fun f => Chrometrace.event sl trace f "E" now)
    ++ (trace.frames.reverse.drop idx).map
      (fun f => Chrometrace.event sl trace f "B" now)

/-- The streaming sink.  `cap` models the point at which the underlying
I/O starts failing: a write succeeds while fewer than `cap` events have
been accepted and fails afterwards, which lets every failure point of the
Rust `Writer::write` be exercised. -/
structure Writer where
  cap : Nat
  events : List Event
deriving DecidableEq

/-- One `Writer::write` call: appends the event or reports failure. -/
def Writer.write (w : Writer) (e : Event) : Option Writer :=
  if w.events.length < w.cap then some { w with events := w.events ++ [e] } else none

/-- Write a list of events in order, stopping at the first failure; the
boolean reports whether every write succeeded. -/
def writeAll (w : Writer) : List Event → Writer × Bool
  | [] => (w, true)
  | e :: rest =>
    match w.write e with
    | some w' => writeAll w' rest
    | none => (w, false)

/-- The encoder state.  The `start_ts` clock is outside the embedding:
timestamps are passed to each operation explicitly. -/
structure Chrometrace where
  writer : Writer
  prevTraces : List (Nat × StackTrace)
  showLinenumbers : Bool
deriving DecidableEq

/-- `HashMap::remove` on the per-thread map. -/
def mapRemove (tid : Nat) (m : List (Nat × StackTrace)) : List (Nat × StackTrace) :=
  m.filter (fun p => p.1 != tid)

/-- `HashMap::insert` on the per-thread map (overwrites). -/
def mapInsert (tid : Nat) (t : StackTrace) (m : List (Nat × StackTrace)) :
    List (Nat × StackTrace) :=
  (tid, t) :: mapRemove tid m

/-- `HashMap::get`-style lookup on the per-thread map. -/
def mapLookup (tid : Nat) : List (Nat × StackTrace) → Option StackTrace
  | [] => none
  | (k, v) :: rest => if k = tid then some v else mapLookup tid rest

/-- `Chrometrace::new` (with the failure budget of the fresh sink). -/
def Chrometrace.new (sl : Bool) (cap : Nat) : Chrometrace :=
  { writer := { cap := cap, events := [] }, prevTraces := [], showLinenumbers := sl }

/-- `Chrometrace::record_events`: writes the diff events one at a time;
on a write failure the error propagates (`?`) with the writer keeping the
partial content. -/
def Chrometrace.recordEvents (c : Chrometrace) (now : Nat) (trace : StackTrace)
    (prevTrace : Option StackTrace) : Chrometrace × Bool :=
  let prevFrames := (prevTrace.map (fun t => t.frames)).getD []
  let r := writeAll c.writer (recordEventsList c.showLinenumbers now trace prevFrames)
  ({ c with writer := r.1 }, r.2)

/-- The per-trace loop of `Chrometrace::increment`: each trace's previous
entry is removed from `prev_traces` before `record_events` runs, and the
trace is stored in the new map only after its events were written; a write
failure propagates immediately, leaving `prev_traces` as mutated so far. -/
def incrementLoop (now : Nat) (c : Chrometrace) (newPrev : List (Nat × StackTrace)) :
    List StackTrace → Chrometrace × List (Nat × StackTrace) × Bool
  | [] => (c, newPrev, true)
  | t :: rest =>
    let prev := mapLookup t.thread_id c.prevTraces
    let c₁ := { c with prevTraces := mapRemove t.thread_id c.prevTraces }
    let r := c₁.recordEvents now t prev
    if r.2 then incrementLoop now r.1 (mapInsert t.thread_id t newPrev) rest
    else (r.1, newPrev, false)

/-- The trailing loop of `Chrometrace::increment` (and the first loop of
`Chrometrace::write`): end events for every frame of every leftover
previous trace, in map order; a failure propagates immediately. -/
def drainEnds (sl : Bool) (now : Nat) (w : Writer) :
    List (Nat × StackTrace) → Writer × Bool
  | [] => (w, true)
  | (_, t) :: rest =>
    let r := writeAll w (t.frames.map (fun f => Chrometrace.event sl t f "E" now))
    if r.2 then drainEnds sl now r.1 rest else (r.1, false)

/-- `Chrometrace::increment`.  `self.prev_traces = new_prev_traces` runs
only after both loops succeeded; on an early `?` return the mutated
`prev_traces` (entries removed by the per-trace loop) is left in place. -/
def Chrometrace.increment (c : Chrometrace) (now : Nat) (traces : List StackTrace) :
    Chrometrace × Bool :=
  let r := incrementLoop now c [] traces
  if r.2.2 then
    let d := drainEnds r.1.showLinenumbers now r.1.writer r.1.prevTraces
    if d.2 then ({ r.1 with writer := d.1, prevTraces := r.2.1 }, true)
    else ({ r.1 with writer := d.1 }, false)
  else (r.1, false)

/-- `Chrometrace::write`: end events for every open frame, then the sink
is swapped for a fresh one and the per-thread map cleared.  The zstd-to-
gzip re-encoding of the drained artifact (and its possible I/O failures
after the swap) is not modelled; a failure while writing the end events
leaves the map untouched, as in the source. -/
def Chrometrace.write (c : Chrometrace) (now : Nat) (newCap : Nat) :
    Chrometrace × Bool :=
  let d := drainEnds c.showLinenumbers now c.writer c.prevTraces
  if d.2 then
    ({ c with writer := { cap := newCap, events := [] }, prevTraces := [] }, true)
  else ({ c with writer := d.1 }, false)

/-- Removing the entries of a batch of traces from the per-thread map, in
batch order (the cumulative effect of the `remove` calls of
`Chrometrace::increment`). -/
def removeAll (ts : List StackTrace) (m : List (Nat × StackTrace)) :
    List (Nat × StackTrace) :=
  ts.foldl (fun m t => mapRemove t.thread_id m) m

/-- The end events `drainEnds` writes for a map, concatenated in map
order. -/
def endEvents (sl : Bool) (now : Nat) : List (Nat × StackTrace) → List Event
  | [] => []
  | (_, t) :: rest =>
    t.frames.map (fun f => Chrometrace.event sl t f "E" now) ++ endEvents sl now rest

/-- The number of still-open frames of a thread in an event stream: begin
events minus end events for that `tid`. -/
def openCount (tid : Nat) (events : List Event) : Int :=
  (events.countP (fun e => decide (e.tid = tid ∧ e.ph = "B")) : Int) -
    (events.countP (fun e => decide (e.tid = tid ∧ e.ph = "E")) : Int)

/-- Well-formedness of the per-thread map: keys are the stored traces'
thread ids and are unique (both hold for a `HashMap` keyed by
`trace.thread_id`). -/
def WFmap (m : List (Nat × StackTrace)) : Prop :=
  (∀ p ∈ m, p.1 = p.2.thread_id) ∧ (m.map Prod.fst).Nodup

/-- The spec's encoder-session invariant, as amended: the per-thread map
is well-formed, every tracked thread has a nonempty stored frame list and
at least that many frames still open in the event stream, and no thread's
open count is negative. -/
def OpenInv (c : Chrometrace) : Prop :=
  WFmap c.prevTraces ∧
  (∀ tid t, mapLookup tid c.prevTraces = some t →
    t.frames ≠ [] ∧ (t.frames.length : Int) ≤ openCount tid c.writer.events) ∧
  (∀ tid, 0 ≤ openCount tid c.writer.events)

/-! ## Helper lemmas: symbol-table folds -/

theorem alookup_nil (n : List Char) : alookup n [] = none := rfl

/-- Lookup after a skip-or-insert fold: the most recently inserted binding
wins, so a lookup is decided by the last list element that is kept and has
the key, and falls through to the initial map otherwise. -/
theorem alookup_skipFold (key : Sym → List Char) (val : Sym → Nat) :
    ∀ (l : List Sym) (m : List (List Char × Nat)) (n : List Char),
      alookup n (l.foldl (fun acc s => if s.st_shndx = SHN_UNDEF then acc
                                       else (key s, val s) :: acc) m) =
        match l.reverse.find? (fun s => decide (¬s.st_shndx = SHN_UNDEF ∧ key s = n)) with
        | some s => some (val s)
        | none => alookup n m := by
  intro l
  induction l with
  | nil => intro m n; rfl
  | cons s t ih =>
    intro m n
    rw [List.foldl_cons, ih, List.reverse_cons, List.find?_append]
    cases ht : t.reverse.find? (fun s => decide (¬s.st_shndx = SHN_UNDEF ∧ key s = n)) with
    | some x => rfl
    | none =>
      simp only [Option.none_or]
      by_cases hs : s.st_shndx = SHN_UNDEF
      · simp [hs]
      · by_cases hk : key s = n
        · simp [hs, hk, alookup]
        · simp [hs, hk, alookup]

/-- Lookup after the Mach-O underscore-stripping fold. -/
theorem alookup_machFold (off : Nat) :
    ∀ (l : List MachSym) (m : List (List Char × Nat)) (n : List Char),
      alookup n (l.foldl (fun m s =>
          match s.name with
          | [] => m
          | c :: stripped =>
            if c = '_' then (stripped, w64 (s.n_value + off)) :: m else m) m) =
        match l.reverse.find? (fun s => decide (s.name = '_' :: n)) with
        | some s => some (w64 (s.n_value + off))
        | none => alookup n m := by
  intro l
  induction l with
  | nil => intro m n; rfl
  | cons s t ih =>
    intro m n
    rw [List.foldl_cons, ih, List.reverse_cons, List.find?_append]
    cases ht : t.reverse.find? (fun s => decide (s.name = '_' :: n)) with
    | some x => rfl
    | none =>
      simp only [Option.none_or]
      cases hname : s.name with
      | nil => simp [hname]
      | cons c stripped =>
        by_cases hc : c = '_'
        · subst hc
          by_cases hk : stripped = n
          · simp [hname, hk, alookup]
          · simp [hname, hk, alookup]
        · simp [hname, hc, alookup]

/-! ## C6 and C7: symbol-table contents -/

/-- Claim C6: in the ELF branch, static-table symbols are inserted with
the trailing `.llvm.<digits>` suffix stripped (at the suffixed symbol's
address), dynamic-table symbols are inserted afterwards without stripping
and therefore overwrite same-named static entries, and symbols with an
undefined section index are skipped from either table: a lookup is
decided by the last defined dynamic symbol with that exact name, and only
falls back to the last defined static symbol whose stripped name
matches. -/
theorem elf_symbol_table_characterization (off : Nat) (syms dynsyms : List Sym)
    (n : List Char) :
    alookup n (elfSymbols off syms dynsyms) =
      match dynsyms.reverse.find?
          (fun s => decide (¬s.st_shndx = SHN_UNDEF ∧ s.st_name = n)) with
      | some d => some (w64 (d.st_value + off))
      | none =>
        match syms.reverse.find?
            (fun s => decide (¬s.st_shndx = SHN_UNDEF ∧ stripLLVM s.st_name = n)) with
        | some s => some (w64 (s.st_value + off))
        | none => none := by
  unfold elfSymbols
  rw [alookup_skipFold (fun s => s.st_name) (fun s => w64 (s.st_value + off))]
  cases dynsyms.reverse.find? (fun s => decide (¬s.st_shndx = SHN_UNDEF ∧ s.st_name = n)) with
  | some d => rfl
  | none =>
    rw [alookup_skipFold (fun s => stripLLVM s.st_name) (fun s => w64 (s.st_value + off))]
    cases syms.reverse.find?
        (fun s => decide (¬s.st_shndx = SHN_UNDEF ∧ stripLLVM s.st_name = n)) with
    | some s => rfl
    | none => rfl

/-- `takeWhile`/`dropWhile` split at the first failing element when the
whole first segment satisfies the predicate. -/
theorem takeWhile_dropWhile_split {α : Type} {p : α → Bool} :
    ∀ (l₁ : List α) (a : α) (l₂ : List α), (∀ c ∈ l₁, p c = true) → p a = false →
      (l₁ ++ a :: l₂).takeWhile p = l₁ ∧ (l₁ ++ a :: l₂).dropWhile p = a :: l₂ := by
  intro l₁
  induction l₁ with
  | nil =>
    intro a l₂ _ ha
    simp [List.takeWhile_cons, List.dropWhile_cons, ha]
  | cons c t ih =>
    intro a l₂ hall ha
    have hc : p c = true := hall c (by simp)
    have ht := ih a l₂ (fun x hx => hall x (by simp [hx])) ha
    simp [List.takeWhile_cons, List.dropWhile_cons, hc, ht.1, ht.2]

/-- The LLVM-suffix strip removes exactly a trailing `.llvm.` followed by
one or more digits (support for claim C6's reading of the regex). -/
theorem stripLLVM_strips_suffix (pre ds : List Char) (hne : ds ≠ [])
    (hds : ∀ c ∈ ds, c.isDigit = true) :
    stripLLVM (pre ++ ['.', 'l', 'l', 'v', 'm', '.'] ++ ds) = pre := by
  unfold stripLLVM
  have hrev : (pre ++ ['.', 'l', 'l', 'v', 'm', '.'] ++ ds).reverse =
      ds.reverse ++ '.' :: ('m' :: 'v' :: 'l' :: 'l' :: '.' :: pre.reverse) := by
    simp
  have hdot : Char.isDigit '.' = false := by decide
  have hsplit := takeWhile_dropWhile_split ds.reverse '.'
    ('m' :: 'v' :: 'l' :: 'l' :: '.' :: pre.reverse)
    (fun c hc => hds c (List.mem_reverse.mp hc)) hdot
  rw [hrev]
  simp only [hsplit.1, hsplit.2]
  have hne' : ds.reverse ≠ [] := by
    intro h
    exact hne (by simpa using congrArg List.reverse h)
  simp [hne']

/-! ## Helper lemmas: lists, max-by-key, frame diff -/

theorem reverse_drop_reverse {α : Type} (l : List α) (n : Nat) :
    (l.reverse.drop n).reverse = l.take (l.length - n) := by
  by_cases h : n ≤ l.length
  · conv_lhs => rw [← List.take_append_drop (l.length - n) l, List.reverse_append]
    rw [List.drop_left' (by rw [List.length_reverse, List.length_drop]; omega),
      List.reverse_reverse]
  · have h1 : l.reverse.drop n = [] :=
      List.drop_eq_nil_of_le (by rw [List.length_reverse]; omega)
    have h2 : l.length - n = 0 := by omega
    rw [h1, h2, List.take_zero, List.reverse_nil]

theorem foldl_pickMax_spec : ∀ (t : List SectionHeader) (b : SectionHeader),
    (t.foldl pickMax b = b ∨ t.foldl pickMax b ∈ t) ∧
    b.sh_size ≤ (t.foldl pickMax b).sh_size ∧
    ∀ x ∈ t, x.sh_size ≤ (t.foldl pickMax b).sh_size := by
  intro t
  induction t with
  | nil => intro b; exact ⟨Or.inl rfl, Nat.le_refl _, by simp⟩
  | cons a t ih =>
    intro b
    have hb' := ih (pickMax b a)
    refine ⟨?_, ?_, ?_⟩
    · rcases hb'.1 with h | h
      · rw [List.foldl_cons, h]
        unfold pickMax
        split
        · exact Or.inr (by simp)
        · exact Or.inl rfl
      · exact Or.inr (List.mem_cons_of_mem a (by rw [List.foldl_cons]; exact h))
    · rw [List.foldl_cons]
      refine Nat.le_trans ?_ hb'.2.1
      unfold pickMax
      split
      · assumption
      · exact Nat.le_refl _
    · intro x hx
      rw [List.foldl_cons]
      rcases List.mem_cons.mp hx with h | h
      · subst h
        refine Nat.le_trans ?_ hb'.2.1
        unfold pickMax
        split
        · exact Nat.le_refl _
        · omega
      · exact hb'.2.2 x h

theorem maxBySize_spec (l : List SectionHeader) (h : SectionHeader)
    (hm : maxBySize l = some h) : h ∈ l ∧ ∀ x ∈ l, x.sh_size ≤ h.sh_size := by
  cases l with
  | nil => cases hm
  | cons a t =>
    have hh : t.foldl pickMax a = h := by
      have := hm
      unfold maxBySize at this
      exact Option.some.inj this
    have hs := foldl_pickMax_spec t a
    rw [hh] at hs
    refine ⟨?_, ?_⟩
    · rcases hs.1 with h1 | h1
      · rw [h1]; simp
      · exact List.mem_cons_of_mem a h1
    · intro x hx
      rcases List.mem_cons.mp hx with h1 | h1
      · subst h1; exact hs.2.1
      · exact hs.2.2 x h1

/-- Any value stored in the ELF symbol map is a kept symbol's `st_value`
plus the offset, wrapped to 64 bits. -/
theorem elfSymbols_mem_values (off : Nat) (syms dynsyms : List Sym)
    (n : List Char) (v : Nat)
    (h : alookup n (elfSymbols off syms dynsyms) = some v) :
    ∃ s, (s ∈ syms ∨ s ∈ dynsyms) ∧ ¬s.st_shndx = SHN_UNDEF ∧
      v = w64 (s.st_value + off) := by
  unfold elfSymbols at h
  rw [alookup_skipFold (fun s => s.st_name) (fun s => w64 (s.st_value + off))] at h
  cases hd : dynsyms.reverse.find?
      (fun s => decide (¬s.st_shndx = SHN_UNDEF ∧ s.st_name = n)) with
  | some d =>
    rw [hd] at h
    have hp := List.find?_some hd
    simp only [decide_eq_true_eq] at hp
    refine ⟨d, Or.inr (List.mem_reverse.mp (List.mem_of_find?_eq_some hd)), hp.1, ?_⟩
    exact (Option.some.inj h).symm
  | none =>
    rw [hd] at h
    rw [alookup_skipFold (fun s => stripLLVM s.st_name) (fun s => w64 (s.st_value + off))] at h
    cases hs : syms.reverse.find?
        (fun s => decide (¬s.st_shndx = SHN_UNDEF ∧ stripLLVM s.st_name = n)) with
    | some s =>
      rw [hs] at h
      have hp := List.find?_some hs
      simp only [decide_eq_true_eq] at hp
      refine ⟨s, Or.inl (List.mem_reverse.mp (List.mem_of_find?_eq_some hs)), hp.1, ?_⟩
      exact (Option.some.inj h).symm
    | none =>
      rw [hs] at h
      cases h

theorem shouldMergeFrames_refl (sl : Bool) (a : Frame) :
    shouldMergeFrames sl a a = true := by
  simp [shouldMergeFrames]

theorem firstMismatch_le (sl : Bool) :
    ∀ ps cs : List Frame, firstMismatch sl ps cs ≤ min ps.length cs.length := by
  intro ps
  induction ps with
  | nil => intro cs; simp [firstMismatch]
  | cons a ps ih =>
    intro cs
    cases cs with
    | nil => simp [firstMismatch]
    | cons b cs =>
      unfold firstMismatch
      by_cases h : shouldMergeFrames sl a b
      · have := ih cs
        simp only [h, Bool.not_true, Bool.false_eq_true, if_false, List.length_cons]
        omega
      · simp [h]

theorem firstMismatch_all_merge (sl : Bool) :
    ∀ ps cs : List Frame,
      ((ps.zip cs).all (fun p => shouldMergeFrames sl p.1 p.2)) = true →
      firstMismatch sl ps cs = min ps.length cs.length := by
  intro ps
  induction ps with
  | nil => intro cs _; simp [firstMismatch]
  | cons a ps ih =>
    intro cs hall
    cases cs with
    | nil => simp [firstMismatch]
    | cons b cs =>
      rw [List.zip_cons_cons, List.all_cons, Bool.and_eq_true] at hall
      unfold firstMismatch
      simp only [hall.1, Bool.not_true, Bool.false_eq_true, if_false, List.length_cons]
      rw [ih cs hall.2]
      omega

theorem firstMismatch_self (sl : Bool) (l : List Frame) :
    firstMismatch sl l l = l.length := by
  have h : ((l.zip l).all (fun p => shouldMergeFrames sl p.1 p.2)) = true := by
    rw [List.all_eq_true]
    intro p hp
    have : p.1 = p.2 := by
      induction l with
      | nil => cases hp
      | cons a t iht =>
        rw [List.zip_cons_cons, List.mem_cons] at hp
        rcases hp with h1 | h1
        · rw [h1]
        · exact iht h1
    rw [this]
    exact shouldMergeFrames_refl sl p.2
  rw [firstMismatch_all_merge sl l l h]
  simp

/-! ## C8: frame-diff idempotence -/

/-- Claim C8: diffing a stack against itself emits no events: the end set
and the begin set of `record_events` are both empty. -/
theorem frame_diff_idempotent (sl : Bool) (now : Nat) (trace : StackTrace) :
    recordEventsList sl now trace trace.frames = [] := by
  have h1 : trace.frames.reverse.drop
      (firstMismatch sl trace.frames.reverse trace.frames.reverse) = [] := by
    rw [firstMismatch_self]
    exact List.drop_eq_nil_of_le (Nat.le_refl _)
  unfold recordEventsList newIdx
  simp only [h1, List.reverse_nil, List.map_nil, List.append_nil]

/-! ## C1: ELF address offset and the missing-segment error -/

/-- Claim C1 counterexample: on an ELF with no loadable executable
segment and no BSS candidate, resolution fails with `MissingBssSection`,
not `MissingExecutableSegment` — the BSS lookup runs first. -/
theorem elf_error_precedence_counterexample :
    (([] : List ProgramHeader).find? isExecLoad = none) ∧
    elfParse 0 4096 [] [] [] [] = .error .missingBssSection ∧
    ParseError.missingBssSection ≠ ParseError.missingExecutableSegment :=
  ⟨rfl, rfl, by decide⟩

/-- Claim C1 as amended: on a successful ELF parse, every resolved symbol
value is some kept symbol's file value plus
`load_address − page_align_down(first executable segment's vaddr)` in
64-bit wrapping arithmetic, and the BSS address gets the same offset; and
when no executable segment exists *but a BSS candidate does*, resolution
fails with `MissingExecutableSegment` (with no BSS candidate the earlier
`MissingBssSection` error wins). -/
theorem elf_offset_and_missing_exec (addr ps : Nat) (sections : List SectionHeader)
    (programs : List ProgramHeader) (syms dynsyms : List Sym) (info : BinaryInfo)
    (ph : ProgramHeader)
    (hph : programs.find? isExecLoad = some ph)
    (hok : elfParse addr ps sections programs syms dynsyms = .ok info) :
    (∀ n v, alookup n info.symbols = some v →
      ∃ s, (s ∈ syms ∨ s ∈ dynsyms) ∧ ¬s.st_shndx = SHN_UNDEF ∧
        v = w64 (s.st_value + wsub addr (pageAlignDown ph.p_vaddr ps))) ∧
    (∃ h, h ∈ sections ∧ bssCandidate h = true ∧
      info.bss_addr = w64 (h.sh_addr + wsub addr (pageAlignDown ph.p_vaddr ps))) ∧
    ∀ (addr' ps' : Nat) (sections' : List SectionHeader)
      (programs' : List ProgramHeader) (syms' dynsyms' : List Sym),
      programs'.find? isExecLoad = none →
      ¬sections'.filter bssCandidate = [] →
      elfParse addr' ps' sections' programs' syms' dynsyms' =
        .error .missingExecutableSegment := by
  unfold elfParse at hok
  cases hbss : maxBySize (sections.filter bssCandidate) with
  | none => rw [hbss] at hok; cases hok
  | some bssHeader =>
    rw [hbss, hph] at hok
    have hinfo := (Except.ok.inj hok).symm
    have hmem := maxBySize_spec _ _ hbss
    have hmf := List.mem_filter.mp hmem.1
    refine ⟨?_, ?_, ?_⟩
    · intro n v hv
      rw [hinfo] at hv
      exact elfSymbols_mem_values _ syms dynsyms n v hv
    · exact ⟨bssHeader, hmf.1, hmf.2, by rw [hinfo]; rfl⟩
    · intro addr' ps' sections' programs' syms' dynsyms' hnone hne
      unfold elfParse
      cases hbss' : maxBySize (sections'.filter bssCandidate) with
      | none =>
        exfalso
        apply hne
        cases hfe : sections'.filter bssCandidate with
        | nil => rfl
        | cons a t => rw [hfe] at hbss'; cases hbss'
      | some b => rw [hnone]

/-- Witness for C1: a concrete ELF whose executable segment sits at
virtual address 5000 (page-aligned down to 4096) loaded at 2000000: the
BSS lands at `500 + (2000000 - 4096)`. -/
theorem elf_offset_and_missing_exec_witness :
    ∃ h, h ∈ [SectionHeader.mk 8 (some ['.', 'b', 's', 's']) 8 500] ∧
      bssCandidate h = true ∧
      (1996404 : Nat) = w64 (h.sh_addr + wsub 2000000 (pageAlignDown 5000 4096)) :=
  (elf_offset_and_missing_exec 2000000 4096
    [⟨8, some ['.', 'b', 's', 's'], 8, 500⟩] [⟨1, 5, 5000⟩]
    [⟨['m'], 100, 1⟩] []
    { symbols := [(['m'], 1996004)], bss_addr := 1996404, bss_size := 8 }
    ⟨1, 5, 5000⟩ rfl (by rfl)).2.1

/-! ## C2: BSS candidate selection -/

/-- Claim C2 counterexample: a NOBITS section whose name does not resolve
in the section-header string table is accepted as the BSS region
(`map_or(true, ..)`), even though no section is named `.bss` — where the
claim demands the `MissingBssSection` error. -/
theorem bss_unnamed_candidate_counterexample :
    (∀ h ∈ [SectionHeader.mk 8 none 4 100], ¬h.sh_name = some ['.', 'b', 's', 's']) ∧
    elfParse 0 4096 [⟨8, none, 4, 100⟩] [⟨1, 1, 0⟩] [] [] =
      .ok { symbols := [], bss_addr := 100, bss_size := 4 } :=
  ⟨by decide, by rfl⟩

/-- Claim C2 as amended: the BSS region is chosen from the section
headers that are NOBITS and whose name either resolves to `.bss` or fails
to resolve at all; a candidate of maximal byte size is selected; and if no
candidate exists resolution fails with `MissingBssSection`. -/
theorem bss_selection (addr ps : Nat) (sections : List SectionHeader)
    (programs : List ProgramHeader) (syms dynsyms : List Sym) (info : BinaryInfo)
    (hok : elfParse addr ps sections programs syms dynsyms = .ok info) :
    (∃ h, h ∈ sections ∧ bssCandidate h = true ∧ info.bss_size = h.sh_size ∧
      ∀ h' ∈ sections, bssCandidate h' = true → h'.sh_size ≤ h.sh_size) ∧
    ∀ (addr' ps' : Nat) (sections' : List SectionHeader)
      (programs' : List ProgramHeader) (syms' dynsyms' : List Sym),
      (∀ h' ∈ sections', bssCandidate h' = false) →
      elfParse addr' ps' sections' programs' syms' dynsyms' =
        .error .missingBssSection := by
  constructor
  · unfold elfParse at hok
    cases hbss : maxBySize (sections.filter bssCandidate) with
    | none => rw [hbss] at hok; cases hok
    | some bssHeader =>
      rw [hbss] at hok
      cases hfind : programs.find? isExecLoad with
      | none => rw [hfind] at hok; cases hok
      | some ph =>
        rw [hfind] at hok
        have hinfo := (Except.ok.inj hok).symm
        have hmem := maxBySize_spec _ _ hbss
        have hmf := List.mem_filter.mp hmem.1
        refine ⟨bssHeader, hmf.1, hmf.2, by rw [hinfo], ?_⟩
        intro h' hh' hc
        exact hmem.2 h' (List.mem_filter.mpr ⟨hh', hc⟩)
  · intro addr' ps' sections' programs' syms' dynsyms' hall
    unfold elfParse
    rw [List.filter_eq_nil_iff.mpr (fun a ha => by rw [hall a ha]; simp)]
    rfl

/-- Witness for C2: with two `.bss`-named NOBITS sections of sizes 4 and
16, the parse result reports size 16, the maximum. -/
theorem bss_selection_witness :
    ∃ h, h ∈ [SectionHeader.mk 8 (some ['.', 'b', 's', 's']) 4 100,
              SectionHeader.mk 8 (some ['.', 'b', 's', 's']) 16 200] ∧
      bssCandidate h = true ∧ (16 : Nat) = h.sh_size ∧
      ∀ h' ∈ [SectionHeader.mk 8 (some ['.', 'b', 's', 's']) 4 100,
              SectionHeader.mk 8 (some ['.', 'b', 's', 's']) 16 200],
        bssCandidate h' = true → h'.sh_size ≤ h.sh_size :=
  (bss_selection 0 4096
    [⟨8, some ['.', 'b', 's', 's'], 4, 100⟩, ⟨8, some ['.', 'b', 's', 's'], 16, 200⟩]
    [⟨1, 1, 0⟩] [] []
    { symbols := [], bss_addr := 200, bss_size := 16 } (by rfl)).1

/-! ## C3: stack-shrink event ordering -/

/-- Claim C3: when the current stack is a strict root-prefix of the
previous stack under the configured comparison, `record_events` writes
exactly `previous_depth - current_depth` end events — the dropped frames
in leaf-first (innermost-first) order — and no begin events; and in every
`record_events` call all end events precede all begin events. -/
theorem shrink_emits_innermost_end_events (sl : Bool) (now : Nat)
    (trace : StackTrace) (prevFrames : List Frame)
    (h₁ : trace.frames.length < prevFrames.length)
    (h₂ : ((prevFrames.reverse.zip trace.frames.reverse).all
        (fun p => shouldMergeFrames sl p.1 p.2)) = true) :
    recordEventsList sl now trace prevFrames =
      (prevFrames.take (prevFrames.length - trace.frames.length)).map
        (fun f => Chrometrace.event sl trace f "E" now) ∧
    ∀ (tr : StackTrace) (pf : List Frame), ∃ es bs,
      recordEventsList sl now tr pf = es ++ bs ∧
      (∀ e ∈ es, e.ph = "E") ∧ (∀ e ∈ bs, e.ph = "B") := by
  constructor
  · have hidx : newIdx sl prevFrames trace.frames = trace.frames.length := by
      unfold newIdx
      rw [firstMismatch_all_merge sl _ _ h₂]
      rw [List.length_reverse, List.length_reverse]
      omega
    have hB : trace.frames.reverse.drop (newIdx sl prevFrames trace.frames) = [] := by
      rw [hidx]
      exact List.drop_eq_nil_of_le (by rw [List.length_reverse])
    have hE : (prevFrames.reverse.drop (newIdx sl prevFrames trace.frames)).reverse =
        prevFrames.take (prevFrames.length - trace.frames.length) := by
      rw [hidx, reverse_drop_reverse]
    unfold recordEventsList
    simp only [hB, hE, List.map_nil, List.append_nil]
  · intro tr pf
    refine ⟨(pf.reverse.drop (newIdx sl pf tr.frames)).reverse.map
        (fun f => Chrometrace.event sl tr f "E" now),
      (tr.frames.reverse.drop (newIdx sl pf tr.frames)).map
        (fun f => Chrometrace.event sl tr f "B" now), rfl, ?_, ?_⟩
    · intro e he
      obtain ⟨f, _, rfl⟩ := List.mem_map.mp he
      rfl
    · intro e he
      obtain ⟨f, _, rfl⟩ := List.mem_map.mp he
      rfl

/-- Witness for C3: a stack of depth 5 shrinking to its root 2 frames
produces exactly the three dropped frames as end events, leaf first. -/
theorem shrink_emits_innermost_end_events_witness :
    recordEventsList true 11 ⟨7, 3, [⟨"d", "f", 1⟩, ⟨"e", "f", 1⟩]⟩
        [⟨"a", "f", 1⟩, ⟨"b", "f", 1⟩, ⟨"c", "f", 1⟩, ⟨"d", "f", 1⟩, ⟨"e", "f", 1⟩] =
      ([⟨"a", "f", 1⟩, ⟨"b", "f", 1⟩, ⟨"c", "f", 1⟩] : List Frame).map
        (fun f => Chrometrace.event true ⟨7, 3, [⟨"d", "f", 1⟩, ⟨"e", "f", 1⟩]⟩ f "E" 11) :=
  (shrink_emits_innermost_end_events true 11 _ _ (by decide) (by decide)).1

/-! ## C9: the serialized line field -/

/-- Claim C9 counterexample: with line numbers disabled, the serialized
`args` object still contains a `line` field (with value `null`) — the
`Option` field has no skip attribute, so serde emits `"line": null`. -/
theorem line_field_present_when_disabled_counterexample :
    ("line", Json.null) ∈
      serializeArgs (Chrometrace.event false ⟨1, 2, [⟨"m", "file", 7⟩]⟩
        ⟨"m", "file", 7⟩ "B" 0).args :=
  List.Mem.tail _ (List.Mem.head _)

/-- Claim C9 as amended: the serialized `args` object always contains the
`line` field: the frame's line truncated to 32 bits when line-number
reporting is enabled, and JSON `null` when it is disabled. -/
theorem args_line_field_characterization (sl : Bool) (trace : StackTrace)
    (f : Frame) (ph : String) (ts : Nat) :
    serializeArgs (Chrometrace.event sl trace f ph ts).args =
      [("filename", Json.str f.filename),
       ("line", if sl then Json.num (f.line % 2 ^ 32) else Json.null)] := by
  cases sl <;> simp [serializeArgs, Chrometrace.event]

/-! ## C10: Mach-O default BSS -/

theorem machBss_of_no_match (off : Nat) :
    ∀ (l : List MachSection) (b : Nat × Nat),
      (∀ s ∈ l, ¬s.name = ['_', '_', 'b', 's', 's']) →
      (l.foldl (fun b s => if s.name = ['_', '_', 'b', 's', 's']
                           then (w64 (s.addr + off), s.size) else b) b) = b := by
  intro l
  induction l with
  | nil => intro b _; rfl
  | cons s t ih =>
    intro b h
    rw [List.foldl_cons, if_neg (h s (by simp))]
    exact ih b (fun x hx => h x (by simp [hx]))

/-- Claim C10: a Mach-O image with no section named `__bss` resolves
without error, with `bss_addr = 0` and `bss_size = 0`. -/
theorem mach_missing_bss_defaults_zero (off : Nat) (sections : List MachSection)
    (syms : List MachSym)
    (h : ∀ s ∈ sections, ¬s.name = ['_', '_', 'b', 's', 's']) :
    machParse off sections syms =
      .ok { symbols := machSymbols off syms, bss_addr := 0, bss_size := 0 } := by
  unfold machParse machBss
  rw [machBss_of_no_match off sections (0, 0) h]

/-- Witness for C10 at a concrete Mach-O image with a `__text` section
and no `__bss`. -/
theorem mach_missing_bss_defaults_zero_witness :
    machParse 4096 [⟨['_', '_', 't', 'e', 'x', 't'], 5, 6⟩] [] =
      .ok { symbols := [], bss_addr := 0, bss_size := 0 } :=
  mach_missing_bss_defaults_zero 4096 _ _ (by decide)

/-! ## Helper lemmas: the per-thread map -/

theorem mapLookup_remove_self (tid : Nat) (m : List (Nat × StackTrace)) :
    mapLookup tid (mapRemove tid m) = none := by
  induction m with
  | nil => rfl
  | cons p rest ih =>
    by_cases h : p.1 = tid
    · simpa [mapRemove, h] using ih
    · simpa [mapRemove, mapLookup, h] using ih

theorem mapLookup_remove_ne (tid tid' : Nat) (m : List (Nat × StackTrace))
    (h : ¬tid' = tid) : mapLookup tid' (mapRemove tid m) = mapLookup tid' m := by
  induction m with
  | nil => rfl
  | cons p rest ih =>
    obtain ⟨k, v⟩ := p
    by_cases hp : k = tid
    · have h1 : mapRemove tid ((k, v) :: rest) = mapRemove tid rest := by
        simp [mapRemove, hp]
      have hne : ¬k = tid' := by rw [hp]; exact fun hx => h hx.symm
      rw [h1, ih]
      simp [mapLookup, hne]
    · have h1 : mapRemove tid ((k, v) :: rest) = (k, v) :: mapRemove tid rest := by
        simp [mapRemove, hp]
      rw [h1]
      by_cases hp' : k = tid'
      · simp [mapLookup, hp']
      · simp [mapLookup, hp', ih]

theorem mapLookup_insert_self (tid : Nat) (t : StackTrace)
    (m : List (Nat × StackTrace)) : mapLookup tid (mapInsert tid t m) = some t := by
  simp [mapInsert, mapLookup]

theorem mapLookup_insert_ne (tid tid' : Nat) (t : StackTrace)
    (m : List (Nat × StackTrace)) (h : ¬tid' = tid) :
    mapLookup tid' (mapInsert tid t m) = mapLookup tid' m := by
  have : ¬tid = tid' := fun hx => h hx.symm
  simp [mapInsert, mapLookup, this, mapLookup_remove_ne tid tid' m h]

theorem mem_mapRemove (tid : Nat) (m : List (Nat × StackTrace))
    (p : Nat × StackTrace) (h : p ∈ mapRemove tid m) : p ∈ m :=
  List.mem_of_mem_filter h

theorem WFmap_remove (tid : Nat) (m : List (Nat × StackTrace)) (h : WFmap m) :
    WFmap (mapRemove tid m) := by
  refine ⟨fun p hp => h.1 p (mem_mapRemove tid m p hp), ?_⟩
  exact ((List.filter_sublist m).map Prod.fst).nodup h.2

theorem WFmap_insert (tid : Nat) (t : StackTrace) (m : List (Nat × StackTrace))
    (hkey : tid = t.thread_id) (h : WFmap m) : WFmap (mapInsert tid t m) := by
  refine ⟨?_, ?_⟩
  · intro p hp
    rcases List.mem_cons.mp hp with h1 | h1
    · rw [h1]; exact hkey
    · exact (WFmap_remove tid m h).1 p h1
  · rw [mapInsert, List.map_cons]
    refine List.Nodup.cons ?_ (WFmap_remove tid m h).2
    intro hmem
    obtain ⟨p, hp, hfst⟩ := List.mem_map.mp hmem
    have := List.of_mem_filter hp
    rw [hfst] at this
    simp at this

theorem mapLookup_none_of_not_mem (tid : Nat) (m : List (Nat × StackTrace))
    (h : tid ∉ m.map Prod.fst) : mapLookup tid m = none := by
  induction m with
  | nil => rfl
  | cons p rest ih =>
    rw [List.map_cons, List.mem_cons] at h
    push_neg at h
    have hne : ¬p.1 = tid := fun hx => h.1 hx.symm
    simpa [mapLookup, hne] using ih h.2

/-! ## Helper lemmas: the fallible sink -/

theorem writeAll_ok : ∀ (evs : List Event) (w w' : Writer),
    writeAll w evs = (w', true) → w'.events = w.events ++ evs := by
  intro evs
  induction evs with
  | nil =>
    intro w w' h
    rw [(Prod.mk.injEq _ _ _ _).mp h |>.1.symm]
    simp
  | cons e rest ih =>
    intro w w' h
    unfold writeAll Writer.write at h
    by_cases hc : w.events.length < w.cap
    · rw [if_pos hc] at h
      have := ih _ _ h
      simpa using this
    · rw [if_neg hc] at h
      cases (Prod.mk.injEq _ _ _ _).mp h |>.2

theorem recordEvents_fst_prevTraces (c : Chrometrace) (now : Nat) (t : StackTrace)
    (p : Option StackTrace) : (c.recordEvents now t p).1.prevTraces = c.prevTraces := rfl

theorem recordEvents_fst_show (c : Chrometrace) (now : Nat) (t : StackTrace)
    (p : Option StackTrace) :
    (c.recordEvents now t p).1.showLinenumbers = c.showLinenumbers := rfl

theorem recordEvents_fst_writer (c : Chrometrace) (now : Nat) (t : StackTrace)
    (p : Option StackTrace) :
    (c.recordEvents now t p).1.writer =
      (writeAll c.writer (recordEventsList c.showLinenumbers now t
        ((p.map (fun t => t.frames)).getD []))).1 := rfl

theorem recordEvents_snd (c : Chrometrace) (now : Nat) (t : StackTrace)
    (p : Option StackTrace) :
    (c.recordEvents now t p).2 =
      (writeAll c.writer (recordEventsList c.showLinenumbers now t
        ((p.map (fun t => t.frames)).getD []))).2 := rfl

/-! ## C4: what a failed increment does to the per-thread map -/

/-- On every path, `incrementLoop` leaves `prev_traces` equal to the
original map with the entries of an initial prefix of the batch removed;
on success the whole batch has been removed. -/
theorem incrementLoop_prevTraces (now : Nat) :
    ∀ (traces : List StackTrace) (c : Chrometrace) (np : List (Nat × StackTrace)),
      (∃ k, k ≤ traces.length ∧
        (incrementLoop now c np traces).1.prevTraces =
          removeAll (traces.take k) c.prevTraces) ∧
      ((incrementLoop now c np traces).2.2 = true →
        (incrementLoop now c np traces).1.prevTraces = removeAll traces c.prevTraces) := by
  intro traces
  induction traces with
  | nil => intro c np; exact ⟨⟨0, Nat.le_refl 0, rfl⟩, fun _ => rfl⟩
  | cons t rest ih =>
    intro c np
    simp only [incrementLoop]
    by_cases hok : (Chrometrace.recordEvents
        { c with prevTraces := mapRemove t.thread_id c.prevTraces } now t
        (mapLookup t.thread_id c.prevTraces)).2 = true
    · rw [if_pos hok]
      have hprev : (Chrometrace.recordEvents
          { c with prevTraces := mapRemove t.thread_id c.prevTraces } now t
          (mapLookup t.thread_id c.prevTraces)).1.prevTraces =
          mapRemove t.thread_id c.prevTraces := rfl
      have hre : ∀ k, removeAll (rest.take k)
          (mapRemove t.thread_id c.prevTraces) =
          removeAll ((t :: rest).take (k + 1)) c.prevTraces := fun _ => rfl
      obtain ⟨⟨k, hk, hkeq⟩, hfull⟩ := ih (Chrometrace.recordEvents
          { c with prevTraces := mapRemove t.thread_id c.prevTraces } now t
          (mapLookup t.thread_id c.prevTraces)).1 (mapInsert t.thread_id t np)
      refine ⟨⟨k + 1, by simpa using Nat.succ_le_succ hk, ?_⟩, ?_⟩
      · rw [hkeq, hprev]
        exact hre k
      · intro hflag
        have := hfull hflag
        rw [this, hprev]
        rfl
    · rw [if_neg hok]
      refine ⟨⟨1, by simp, ?_⟩, ?_⟩
      · exact recordEvents_fst_prevTraces _ now t _
      · intro hflag
        simp at hflag

/-- Claim C4 counterexample: an encoder tracking thread 1 whose sink
rejects every write is incremented with a batch for thread 1; the call
fails, and the per-thread map afterwards is empty — not unchanged. -/
theorem increment_failure_mutates_prev_counterexample :
    ((Chrometrace.mk ⟨0, []⟩ [(1, ⟨1, 0, [⟨"a", "b", 1⟩]⟩)] false).increment 5
        [⟨1, 0, []⟩]).2 = false ∧
    ¬((Chrometrace.mk ⟨0, []⟩ [(1, ⟨1, 0, [⟨"a", "b", 1⟩]⟩)] false).increment 5
        [⟨1, 0, []⟩]).1.prevTraces = [(1, ⟨1, 0, [⟨"a", "b", 1⟩]⟩)] :=
  ⟨rfl, by decide⟩

/-- Claim C4 as amended: when `increment` returns a sink-write error, the
per-thread previous-trace mapping equals its pre-call value with the
entries for the thread ids of an initial prefix of the batch removed —
the entry of each processed trace (including the failing one) is removed
before its events are written, so the mapping is generally not
unchanged. -/
theorem increment_failure_removes_processed_entries (c : Chrometrace) (now : Nat)
    (traces : List StackTrace) (c' : Chrometrace)
    (h : c.increment now traces = (c', false)) :
    ∃ k, k ≤ traces.length ∧
      c'.prevTraces = removeAll (traces.take k) c.prevTraces := by
  unfold Chrometrace.increment at h
  have hl := incrementLoop_prevTraces now traces c []
  by_cases hok : (incrementLoop now c [] traces).2.2 = true
  · rw [if_pos hok] at h
    by_cases hd : (drainEnds (incrementLoop now c [] traces).1.showLinenumbers now
        (incrementLoop now c [] traces).1.writer
        (incrementLoop now c [] traces).1.prevTraces).2 = true
    · rw [if_pos hd] at h
      cases (Prod.mk.injEq _ _ _ _).mp h |>.2
    · rw [if_neg hd] at h
      have hc' : c' = { (incrementLoop now c [] traces).1 with
          writer := (drainEnds (incrementLoop now c [] traces).1.showLinenumbers now
            (incrementLoop now c [] traces).1.writer
            (incrementLoop now c [] traces).1.prevTraces).1 } :=
        ((Prod.mk.injEq _ _ _ _).mp h |>.1).symm
      refine ⟨traces.length, Nat.le_refl _, ?_⟩
      rw [hc', List.take_length]
      exact hl.2 hok
  · rw [if_neg hok] at h
    obtain ⟨k, hk, hkeq⟩ := hl.1
    refine ⟨k, hk, ?_⟩
    rw [((Prod.mk.injEq _ _ _ _).mp h |>.1).symm]
    exact hkeq

/-- Witness for C4's amended statement at the counterexample input. -/
theorem increment_failure_removes_processed_entries_witness :
    ∃ k, k ≤ ([⟨1, 0, []⟩] : List StackTrace).length ∧
      ((Chrometrace.mk ⟨0, []⟩ [(1, ⟨1, 0, [⟨"a", "b", 1⟩]⟩)] false).increment 5
          [⟨1, 0, []⟩]).1.prevTraces =
        removeAll (([⟨1, 0, []⟩] : List StackTrace).take k)
          [(1, ⟨1, 0, [⟨"a", "b", 1⟩]⟩)] :=
  increment_failure_removes_processed_entries
    (Chrometrace.mk ⟨0, []⟩ [(1, ⟨1, 0, [⟨"a", "b", 1⟩]⟩)] false) 5 [⟨1, 0, []⟩]
    ((Chrometrace.mk ⟨0, []⟩ [(1, ⟨1, 0, [⟨"a", "b", 1⟩]⟩)] false).increment 5
      [⟨1, 0, []⟩]).1 (by rfl)

/-! ## Helper lemmas: open-frame counting -/

theorem openCount_nil (tid : Nat) : openCount tid [] = 0 := rfl

theorem openCount_append (tid : Nat) (l₁ l₂ : List Event) :
    openCount tid (l₁ ++ l₂) = openCount tid l₁ + openCount tid l₂ := by
  unfold openCount
  rw [List.countP_append, List.countP_append]
  push_cast
  ring

theorem openCount_map_end (tid : Nat) (sl : Bool) (tr : StackTrace) (now : Nat)
    (l : List Frame) :
    openCount tid (l.map (fun f => Chrometrace.event sl tr f "E" now)) =
      if tr.thread_id = tid then -(l.length : Int) else 0 := by
  unfold openCount
  rw [List.countP_map, List.countP_map]
  have hB : ((fun e => decide (e.tid = tid ∧ e.ph = "B")) ∘
      (fun f => Chrometrace.event sl tr f "E" now)) = (fun _ => false) := by
    funext f
    simp [Function.comp_def, Chrometrace.event]
  have hE : ((fun e => decide (e.tid = tid ∧ e.ph = "E")) ∘
      (fun f => Chrometrace.event sl tr f "E" now)) =
      (fun _ => decide (tr.thread_id = tid)) := by
    funext f
    simp [Function.comp_def, Chrometrace.event]
  rw [hB, hE]
  by_cases h : tr.thread_id = tid
  · simp [h]
  · simp [h]

theorem openCount_map_begin (tid : Nat) (sl : Bool) (tr : StackTrace) (now : Nat)
    (l : List Frame) :
    openCount tid (l.map (fun f => Chrometrace.event sl tr f "B" now)) =
      if tr.thread_id = tid then (l.length : Int) else 0 := by
  unfold openCount
  rw [List.countP_map, List.countP_map]
  have hB : ((fun e => decide (e.tid = tid ∧ e.ph = "B")) ∘
      (fun f => Chrometrace.event sl tr f "B" now)) =
      (fun _ => decide (tr.thread_id = tid)) := by
    funext f
    simp [Function.comp_def, Chrometrace.event]
  have hE : ((fun e => decide (e.tid = tid ∧ e.ph = "E")) ∘
      (fun f => Chrometrace.event sl tr f "B" now)) = (fun _ => false) := by
    funext f
    simp [Function.comp_def, Chrometrace.event]
  rw [hB, hE]
  by_cases h : tr.thread_id = tid
  · simp [h]
  · simp [h]

theorem newIdx_le (sl : Bool) (prevFrames currFrames : List Frame) :
    newIdx sl prevFrames currFrames ≤ prevFrames.length ∧
    newIdx sl prevFrames currFrames ≤ currFrames.length := by
  have h := firstMismatch_le sl prevFrames.reverse currFrames.reverse
  rw [List.length_reverse, List.length_reverse] at h
  unfold newIdx
  omega

/-- The net open-frame change of one `record_events` call for the thread
it concerns: current depth minus previous depth. -/
theorem openCount_recordEventsList_self (sl : Bool) (now : Nat) (tr : StackTrace)
    (prevFrames : List Frame) :
    openCount tr.thread_id (recordEventsList sl now tr prevFrames) =
      (tr.frames.length : Int) - (prevFrames.length : Int) := by
  have hle := newIdx_le sl prevFrames tr.frames
  unfold recordEventsList
  rw [openCount_append, openCount_map_end, openCount_map_begin]
  rw [if_pos rfl, if_pos rfl]
  rw [List.length_reverse, List.length_drop, List.length_reverse, List.length_drop,
    List.length_reverse]
  omega

/-- `record_events` writes only events tagged with its trace's thread id,
so other threads' open counts are unchanged. -/
theorem openCount_recordEventsList_ne (tid : Nat) (sl : Bool) (now : Nat)
    (tr : StackTrace) (prevFrames : List Frame) (h : ¬tr.thread_id = tid) :
    openCount tid (recordEventsList sl now tr prevFrames) = 0 := by
  unfold recordEventsList
  rw [openCount_append, openCount_map_end, openCount_map_begin]
  rw [if_neg h, if_neg h]
  ring

/-- A successful `drainEnds` appends exactly the end events of the map's
traces, in map order. -/
theorem drainEnds_ok (sl : Bool) (now : Nat) :
    ∀ (m : List (Nat × StackTrace)) (w w' : Writer),
      drainEnds sl now w m = (w', true) →
      w'.events = w.events ++ endEvents sl now m := by
  intro m
  induction m with
  | nil =>
    intro w w' h
    rw [(Prod.mk.injEq _ _ _ _).mp h |>.1.symm]
    simp [endEvents]
  | cons p rest ih =>
    intro w w' h
    obtain ⟨k, t⟩ := p
    simp only [drainEnds] at h
    by_cases hok : (writeAll w (t.frames.map
        (fun f => Chrometrace.event sl t f "E" now))).2 = true
    · rw [if_pos hok] at h
      have hwpair : writeAll w (t.frames.map (fun f => Chrometrace.event sl t f "E" now)) =
          ((writeAll w (t.frames.map (fun f => Chrometrace.event sl t f "E" now))).1,
            true) := by
        rw [← hok]
      have hw := writeAll_ok _ _ _ hwpair
      rw [ih _ _ h, hw]
      simp [endEvents]
    · rw [if_neg hok] at h
      cases (Prod.mk.injEq _ _ _ _).mp h |>.2

/-- The open-count contribution of a map's end events: minus the tracked
trace's depth for its thread, nothing for anyone else. -/
theorem openCount_endEvents (sl : Bool) (now : Nat) :
    ∀ (m : List (Nat × StackTrace)),
      (∀ p ∈ m, p.1 = p.2.thread_id) → (m.map Prod.fst).Nodup →
      ∀ tid, openCount tid (endEvents sl now m) =
        (match mapLookup tid m with
         | some t => -(t.frames.length : Int)
         | none => 0) := by
  intro m
  induction m with
  | nil => intro _ _ tid; rfl
  | cons p rest ih =>
    intro hwf hnd tid
    obtain ⟨k, t⟩ := p
    have hkt : k = t.thread_id := hwf (k, t) (by simp)
    rw [List.map_cons, List.nodup_cons] at hnd
    have hrest := ih (fun q hq => hwf q (by simp [hq])) hnd.2
    unfold endEvents
    rw [openCount_append, openCount_map_end, hrest tid]
    by_cases hk : k = tid
    · have hmt : mapLookup tid ((k, t) :: rest) = some t := by
        simp [mapLookup, hk]
      have hnone : mapLookup tid rest = none := by
        apply mapLookup_none_of_not_mem
        rw [← hk]
        exact hnd.1
      rw [hmt, hnone, if_pos (hkt ▸ hk)]
      simp
    · have hmt : mapLookup tid ((k, t) :: rest) = mapLookup tid rest := by
        simp [mapLookup, hk]
      rw [hmt, if_neg (fun hx => hk (hkt ▸ hx))]
      simp

/-- Open-count effect of one successful `record_events` call: other
threads are untouched, and the call's thread ends up with at least its
current depth open (given it had at least its previous depth open
before). -/
theorem recordEvents_openCounts (c : Chrometrace) (now : Nat) (t : StackTrace)
    (po : Option StackTrace)
    (hbound : ((((po.map (fun t => t.frames)).getD []).length : Int)) ≤
      openCount t.thread_id c.writer.events)
    (hr2 : (c.recordEvents now t po).2 = true) :
    (∀ tid, ¬t.thread_id = tid →
      openCount tid (c.recordEvents now t po).1.writer.events =
        openCount tid c.writer.events) ∧
    (t.frames.length : Int) ≤
      openCount t.thread_id (c.recordEvents now t po).1.writer.events := by
  rw [recordEvents_snd] at hr2
  have hwpair : writeAll c.writer (recordEventsList c.showLinenumbers now t
      ((po.map (fun t => t.frames)).getD [])) =
      ((writeAll c.writer (recordEventsList c.showLinenumbers now t
        ((po.map (fun t => t.frames)).getD []))).1, true) := by
    rw [← hr2]
  have hw := writeAll_ok _ _ _ hwpair
  have hwriter : (c.recordEvents now t po).1.writer.events =
      c.writer.events ++ recordEventsList c.showLinenumbers now t
        ((po.map (fun t => t.frames)).getD []) := by
    rw [recordEvents_fst_writer, hw]
  constructor
  · intro tid h
    rw [hwriter, openCount_append, openCount_recordEventsList_ne tid _ now t _ h,
      add_zero]
  · rw [hwriter, openCount_append, openCount_recordEventsList_self]
    omega

/-- The loop of `increment` preserves the open-frame invariant on the
mutated encoder and establishes it for the freshly built map, provided
every write succeeds and every batch trace has frames. -/
theorem incrementLoop_preserves (now : Nat) :
    ∀ (traces : List StackTrace) (c : Chrometrace) (np : List (Nat × StackTrace)),
      OpenInv c →
      WFmap np →
      (∀ tid t, mapLookup tid np = some t →
        t.frames ≠ [] ∧ (t.frames.length : Int) ≤ openCount tid c.writer.events ∧
        mapLookup tid c.prevTraces = none) →
      (∀ t ∈ traces, t.frames ≠ []) →
      (incrementLoop now c np traces).2.2 = true →
      OpenInv (incrementLoop now c np traces).1 ∧
      WFmap (incrementLoop now c np traces).2.1 ∧
      (∀ tid t, mapLookup tid (incrementLoop now c np traces).2.1 = some t →
        t.frames ≠ [] ∧
        (t.frames.length : Int) ≤
          openCount tid (incrementLoop now c np traces).1.writer.events ∧
        mapLookup tid (incrementLoop now c np traces).1.prevTraces = none) := by
  intro traces
  induction traces with
  | nil =>
    intro c np hinv hwf hnp _ _
    exact ⟨hinv, hwf, hnp⟩
  | cons t rest ih =>
    intro c np hinv hwf hnp hfr hflag
    have hr2 : (Chrometrace.recordEvents
        { c with prevTraces := mapRemove t.thread_id c.prevTraces } now t
        (mapLookup t.thread_id c.prevTraces)).2 = true := by
      by_contra hr2
      simp only [incrementLoop] at hflag
      rw [if_neg hr2] at hflag
      simp at hflag
    have hstep : incrementLoop now c np (t :: rest) = incrementLoop now
        (Chrometrace.recordEvents
          { c with prevTraces := mapRemove t.thread_id c.prevTraces } now t
          (mapLookup t.thread_id c.prevTraces)).1
        (mapInsert t.thread_id t np) rest := by
      simp only [incrementLoop]
      rw [if_pos hr2]
    rw [hstep] at hflag ⊢
    have hPbound : ((((mapLookup t.thread_id c.prevTraces).map
        (fun t => t.frames)).getD []).length : Int) ≤
        openCount t.thread_id c.writer.events := by
      cases hpo : mapLookup t.thread_id c.prevTraces with
      | none => simpa using hinv.2.2 t.thread_id
      | some pt => simpa using (hinv.2.1 t.thread_id pt hpo).2
    have hro := recordEvents_openCounts
      { c with prevTraces := mapRemove t.thread_id c.prevTraces } now t
      (mapLookup t.thread_id c.prevTraces) hPbound hr2
    have hprev1 : (Chrometrace.recordEvents
        { c with prevTraces := mapRemove t.thread_id c.prevTraces } now t
        (mapLookup t.thread_id c.prevTraces)).1.prevTraces =
        mapRemove t.thread_id c.prevTraces := rfl
    refine ih _ _ ⟨?_, ?_, ?_⟩ (WFmap_insert _ _ _ rfl hwf) ?_
      (fun t' ht' => hfr t' (List.mem_cons_of_mem t ht')) hflag
    · rw [hprev1]
      exact WFmap_remove _ _ hinv.1
    · intro tid t₂ hl
      rw [hprev1] at hl
      by_cases htid : tid = t.thread_id
      · rw [htid, mapLookup_remove_self] at hl
        cases hl
      · rw [mapLookup_remove_ne _ _ _ htid] at hl
        have hold := hinv.2.1 tid t₂ hl
        refine ⟨hold.1, ?_⟩
        rw [hro.1 tid (fun hx => htid hx.symm)]
        exact hold.2
    · intro tid
      by_cases htid : t.thread_id = tid
      · rw [← htid]
        have := hro.2
        have hnn : (0 : Int) ≤ (t.frames.length : Int) := by positivity
        omega
      · rw [hro.1 tid htid]
        exact hinv.2.2 tid
    · intro tid t₂ hl
      by_cases htid : tid = t.thread_id
      · rw [htid, mapLookup_insert_self] at hl
        have ht₂ : t₂ = t := (Option.some.inj hl).symm
        subst ht₂ htid
        refine ⟨hfr t₂ (by simp), hro.2, ?_⟩
        rw [hprev1, mapLookup_remove_self]
      · rw [mapLookup_insert_ne _ _ _ _ htid] at hl
        have hold := hnp tid t₂ hl
        refine ⟨hold.1, ?_, ?_⟩
        · rw [hro.1 tid (fun hx => htid hx.symm)]
          exact hold.2.1
        · rw [hprev1, mapLookup_remove_ne _ _ _ htid]
          exact hold.2.2

/-! ## C5: the open-frame session invariant -/

/-- Claim C5 counterexample: a batch trace with an empty frame list is
tracked in the per-thread map although no begin event was ever written
for it, so it has no still-open frame — the invariant as stated fails. -/
theorem empty_trace_breaks_invariant_counterexample :
    mapLookup 1 ((Chrometrace.new true 10).increment 0 [⟨1, 2, []⟩]).1.prevTraces =
      some ⟨1, 2, []⟩ ∧
    ¬(1 : Int) ≤ openCount 1
      ((Chrometrace.new true 10).increment 0 [⟨1, 2, []⟩]).1.writer.events :=
  ⟨rfl, by decide⟩

/-- Claim C5 as amended: provided every trace handed to `increment` has a
nonempty frame list and no sink write fails, `new`, `increment` and
`write` preserve the invariant that every tracked thread id has at least
one still-open frame (indeed at least its stored depth), together with
the map well-formedness backing it.  (An empty-frame trace is tracked
with zero open frames, and a failed write can leave drained threads
tracked, so both provisos are necessary.) -/
theorem encoder_open_frame_invariant :
    (∀ (sl : Bool) (cap : Nat), OpenInv (Chrometrace.new sl cap)) ∧
    (∀ (c : Chrometrace) (now : Nat) (traces : List StackTrace) (c' : Chrometrace),
      OpenInv c → (∀ t ∈ traces, t.frames ≠ []) →
      c.increment now traces = (c', true) → OpenInv c') ∧
    (∀ (c : Chrometrace) (now newCap : Nat) (c' : Chrometrace),
      OpenInv c → c.write now newCap = (c', true) → OpenInv c') := by
  refine ⟨?_, ?_, ?_⟩
  · intro sl cap
    refine ⟨⟨?_, ?_⟩, ?_, ?_⟩
    · intro p hp
      simp [Chrometrace.new] at hp
    · simp [Chrometrace.new]
    · intro tid t hl
      simp [Chrometrace.new, mapLookup] at hl
    · intro tid
      exact le_of_eq (openCount_nil tid).symm
  · intro c now traces c' hinv hfr h
    unfold Chrometrace.increment at h
    by_cases hok : (incrementLoop now c [] traces).2.2 = true
    · rw [if_pos hok] at h
      by_cases hd : (drainEnds (incrementLoop now c [] traces).1.showLinenumbers now
          (incrementLoop now c [] traces).1.writer
          (incrementLoop now c [] traces).1.prevTraces).2 = true
      · rw [if_pos hd] at h
        have hc' := ((Prod.mk.injEq _ _ _ _).mp h |>.1).symm
        subst hc'
        have hloop := incrementLoop_preserves now traces c [] hinv
          ⟨(fun p hp => by cases hp), (by simp)⟩
          (fun tid t hl => by simp [mapLookup] at hl) hfr hok
        have hdpair : drainEnds (incrementLoop now c [] traces).1.showLinenumbers now
            (incrementLoop now c [] traces).1.writer
            (incrementLoop now c [] traces).1.prevTraces =
            ((drainEnds (incrementLoop now c [] traces).1.showLinenumbers now
              (incrementLoop now c [] traces).1.writer
              (incrementLoop now c [] traces).1.prevTraces).1, true) := by
          rw [← hd]
        have hdev := drainEnds_ok _ now _ _ _ hdpair
        have hwfl := hloop.1.1
        have hcount : ∀ tid, openCount tid
            (drainEnds (incrementLoop now c [] traces).1.showLinenumbers now
              (incrementLoop now c [] traces).1.writer
              (incrementLoop now c [] traces).1.prevTraces).1.events =
            openCount tid (incrementLoop now c [] traces).1.writer.events +
            (match mapLookup tid (incrementLoop now c [] traces).1.prevTraces with
             | some t => -(t.frames.length : Int)
             | none => 0) := by
          intro tid
          rw [hdev, openCount_append,
            openCount_endEvents _ now _ hwfl.1 hwfl.2 tid]
        refine ⟨hloop.2.1, ?_, ?_⟩
        · intro tid t₂ hl
          have hnp' := hloop.2.2 tid t₂ hl
          refine ⟨hnp'.1, ?_⟩
          show (t₂.frames.length : Int) ≤ openCount tid
            (drainEnds (incrementLoop now c [] traces).1.showLinenumbers now
              (incrementLoop now c [] traces).1.writer
              (incrementLoop now c [] traces).1.prevTraces).1.events
          rw [hcount tid, hnp'.2.2]
          simpa using hnp'.2.1
        · intro tid
          show (0 : Int) ≤ openCount tid
            (drainEnds (incrementLoop now c [] traces).1.showLinenumbers now
              (incrementLoop now c [] traces).1.writer
              (incrementLoop now c [] traces).1.prevTraces).1.events
          rw [hcount tid]
          cases hpo : mapLookup tid (incrementLoop now c [] traces).1.prevTraces with
          | none => simpa using hloop.1.2.2 tid
          | some pt =>
            have hb := (hloop.1.2.1 tid pt hpo).2
            have hred : (match (some pt : Option StackTrace) with
                | some t => -(t.frames.length : Int)
                | none => 0) = -(pt.frames.length : Int) := rfl
            rw [hred]
            omega
      · rw [if_neg hd] at h
        cases (Prod.mk.injEq _ _ _ _).mp h |>.2
    · rw [if_neg hok] at h
      cases (Prod.mk.injEq _ _ _ _).mp h |>.2
  · intro c now newCap c' hinv h
    unfold Chrometrace.write at h
    by_cases hd : (drainEnds c.showLinenumbers now c.writer c.prevTraces).2 = true
    · rw [if_pos hd] at h
      have hc' := ((Prod.mk.injEq _ _ _ _).mp h |>.1).symm
      subst hc'
      refine ⟨⟨?_, ?_⟩, ?_, ?_⟩
      · intro p hp
        simp at hp
      · simp
      · intro tid t hl
        simp [mapLookup] at hl
      · intro tid
        exact le_of_eq (openCount_nil tid).symm
    · rw [if_neg hd] at h
      cases (Prod.mk.injEq _ _ _ _).mp h |>.2

/-- Witness for C5: starting from a fresh encoder and one nonempty-stack
trace, the invariant holds after a successful increment. -/
theorem encoder_open_frame_invariant_witness :
    OpenInv ((Chrometrace.new true 10).increment 0 [⟨1, 2, [⟨"a", "f", 3⟩]⟩]).1 :=
  encoder_open_frame_invariant.2.1 (Chrometrace.new true 10) 0
    [⟨1, 2, [⟨"a", "f", 3⟩]⟩]
    ((Chrometrace.new true 10).increment 0 [⟨1, 2, [⟨"a", "f", 3⟩]⟩]).1
    (encoder_open_frame_invariant.1 true 10) (by decide) (by rfl)

/-- Claim C7: in the Mach-O branch every symbol whose name begins with an
underscore is inserted under the name with exactly one leading underscore
removed, at `value + load_address`, and symbols without a leading
underscore are skipped: a lookup of `n` is decided by the last symbol
named `'_' :: n` and nothing else. -/
theorem mach_symbol_table_characterization (off : Nat) (syms : List MachSym)
    (n : List Char) :
    alookup n (machSymbols off syms) =
      match syms.reverse.find? (fun s => decide (s.name = '_' :: n)) with
      | some s => some (w64 (s.n_value + off))
      | none => none := by
  unfold machSymbols
  rw [alookup_machFold off]
  cases syms.reverse.find? (fun s => decide (s.name = '_' :: n)) with
  | some s => rfl
  | none => rfl

end PySpy
